import Mathlib

/-!
Shallow embedding of the record-ingestion pipeline of `src/net/net.go`
(`putRecords`, `loadRecords`, `getLocalRecords`) for a fixed `(thread, log)`
pair.

Modelling conventions:
* A CID is `Option Nat`; `none` stands for `cid.Undef`.
* `St` holds the slice of mutable state the pipeline touches for one
  `(thread, log)`: the logstore head (`store.Heads`/`store.SetHead`), the
  blockstore contents (`n.bstore` / the DAG service used by `Add`/`AddMany`),
  and the list of records published on the broadcast bus, oldest first.
* `Env` packs the external collaborators as oracles: whether an application
  connector is attached (`getConnector`), whether the thread key has a
  read-key (`store.ReadKey != nil`) and a service-key, record retrieval
  (`getRecord`), the fallible block retrievals performed per record
  (`GetBlock`/`EventFromNode`, `GetHeader`, `GetBody`, decryption), identity
  unmarshalling, and the connector callbacks `ValidateNetRecordBody` /
  `HandleNetRecord` together with the bus send `SendWithTimeout`.
  Blockstore writes (`Add`, `AddMany`) and logstore writes (`SetHead`) are
  modelled as total, matching their treatment as reliable local storage.
* The unbounded `for` loop that bridges the gap between the last provided
  record and the current head (`loadRecords`, lines 990-1005) is given a
  fuel parameter; running out of fuel is an error return, the analogue of
  the context cancellation that would stop the Go loop.
-/

namespace GoThreads

/-- A record envelope (`core.Record`): its own CID, the CID of the previous
record in the log (`PrevID`, `none` = genesis), the author public-key bytes
(`PubKey`), and the CIDs of the three internal blocks of its event
(event node, header, body). -/
structure Rec where
  cid : Option Nat
  prev : Option Nat
  pubKey : Nat
  eventCid : Nat
  headerCid : Nat
  bodyCid : Nat
deriving DecidableEq, Repr

/-- The per-`(thread, log)` mutable state the pipeline touches. -/
structure St where
  /-- The log head kept by the logstore (`currentHead` / `SetHead`). -/
  head : Option Nat
  /-- CIDs of the blocks present in the blockstore (envelope and internal
  event/header/body blocks); `isKnown` is membership of the envelope CID. -/
  cas : List Nat
  /-- Records published on the bus, oldest first. -/
  bus : List Rec
deriving DecidableEq, Repr

/-- Errors surfaced by the pipeline; constructors record which step failed. -/
inductive Err where
  | emptyChain
  | fetchFailed (c : Nat)
  | fuelExhausted
  | getBlockFailed (r : Rec)
  | getHeaderFailed (r : Rec)
  | getBodyFailed (r : Rec)
  | decryptFailed (r : Rec)
  | pubKeyFailed (r : Rec)
  | validateFailed (r : Rec)
  | handleFailed (r : Rec)
  | busFailed (r : Rec)
  | noServiceKey
  | loadFailed (e : Err)
deriving DecidableEq, Repr

/-- The external collaborators of the pipeline, as success/lookup oracles. -/
structure Env where
  /-- An application connector is attached to the thread (`getConnector`). -/
  connected : Bool
  /-- `store.ReadKey(tid) != nil`. -/
  readKey : Bool
  /-- `store.ServiceKey(tid) != nil`. -/
  serviceKey : Bool
  /-- `cbor.GetRecord` on a defined CID: the record stored under it, or
  `none` when retrieval fails. -/
  fetch : Nat → Option Rec
  /-- `r.GetBlock` followed by `cbor.EventFromNode` succeeds. -/
  getBlockOk : Rec → Bool
  /-- `event.GetHeader(ctx, dag, nil)` succeeds. -/
  getHeaderOk : Rec → Bool
  /-- `event.GetBody(ctx, dag, nil)` (undecrypted) succeeds. -/
  getBodyOk : Rec → Bool
  /-- `event.GetBody(ctx, dag, readKey)` (decrypting) succeeds. -/
  decryptBodyOk : Rec → Bool
  /-- `identity.UnmarshalBinary(r.PubKey())` succeeds. -/
  pubKeyOk : Rec → Bool
  /-- `connector.ValidateNetRecordBody` succeeds. -/
  validateBody : Rec → Bool
  /-- `connector.HandleNetRecord` succeeds. -/
  handleOk : Rec → Bool
  /-- `bus.SendWithTimeout(record, notifyTimeout)` succeeds. -/
  busOk : Rec → Bool

/-- `isKnown` (net.go:1080): membership of a CID in the blockstore;
the undefined CID is never present. -/
def isKnown (s : St) : Option Nat → Bool
  | none => false
  | some c => s.cas.contains c

/-- Effects performed by the commit loop of `putRecords`, in program order.
Each effect carries the record it concerns (for `setHead` the CID written is
the record's own CID). -/
inductive Eff where
  | setHead (r : Rec)
  | handle (r : Rec)
  | addEnv (r : Rec)
  | emit (r : Rec)
deriving DecidableEq, Repr

/-- The backward walk over the provided records (`loadRecords`, lines
980-987): starting from the last provided record, accumulate records until
hitting one whose CID is undefined or equal to the current head (then the
chain is `complete`) or exhausting the input.  The argument is the provided
list reversed (newest first); the returned chain is newest first, exactly as
the Go slice `chain`. -/
def walkBack (head : Option Nat) : List Rec → List Rec × Bool
  | [] => ([], false)
  | next :: rest =>
    if next.cid = none ∨ next.cid = head then ([], true)
    else
      let p := walkBack head rest
      (next :: p.1, p.2)

/-- `getRecord` (net.go:738): requires the service-key, then fetches. -/
def getRecordM (env : Env) (c : Nat) : Option Rec :=
  if env.serviceKey then env.fetch c else none

/-- The gap-bridging loop (`loadRecords`, lines 990-1005): follow `prev`
pointers from the oldest accumulated record, fetching each missing record,
until reaching the current head or an undefined prev.  `fuel` bounds the
number of fetches; exhaustion is an error (the Go loop would only stop via
context cancellation, which surfaces as a `getRecord` error). -/
def gapFill (env : Env) (head : Option Nat) : Option Nat → Nat → Except Err (List Rec)
  | none, _ => .ok []
  | some c, fuel =>
    if some c = head then .ok []
    else
      match fuel with
      | 0 => .error .fuelExhausted
      | fuel + 1 =>
        match getRecordM env c with
        | none => .error (.fetchFailed c)
        | some r => (gapFill env head r.prev fuel).map (fun rest => r :: rest)

/-- Steps 3-4 of `loadRecords`: the backward walk over the provided records
followed, when the walk did not reach the head, by the gap-bridging fetch
loop.  Returns the chain newest first (Go's `chain` slice).  The walk always
collects at least one record when it is incomplete and the input is
non-empty, so the `none` fallback of `getLast?` is unreachable there. -/
def buildChain (env : Env) (head : Option Nat) (recs : List Rec) (fuel : Nat) :
    Except Err (List Rec) :=
  let p := walkBack head recs.reverse
  if p.2 then .ok p.1
  else
    match p.1.getLast? with
    | none => .ok []
    | some oldest => (gapFill env head oldest.prev fuel).map (fun gap => p.1 ++ gap)

/-- The per-record validation steps of `loadRecords` (lines 1029-1067,
before the `AddMany`): event retrieval, header and body retrieval, and —
when `validate` is set — body decryption, identity unmarshalling and
`ValidateNetRecordBody`. -/
def validateRecord (env : Env) (validate : Bool) (r : Rec) : Except Err Unit :=
  if ¬ env.getBlockOk r then .error (.getBlockFailed r)
  else if ¬ env.getHeaderOk r then .error (.getHeaderFailed r)
  else if ¬ env.getBodyOk r then .error (.getBodyFailed r)
  else if validate then
    if ¬ env.decryptBodyOk r then .error (.decryptFailed r)
    else if ¬ env.pubKeyOk r then .error (.pubKeyFailed r)
    else if ¬ env.validateBody r then .error (.validateFailed r)
    else .ok ()
  else .ok ()

/-- `AddMany([event, header, body])` (net.go:1070): persist the three
internal blocks of a record. -/
def addBlocks (s : St) (r : Rec) : St :=
  { s with cas := s.cas ++ [r.eventCid, r.headerCid, r.bodyCid] }

/-- The per-record loop of `loadRecords` (lines 1029-1075), applied to the
chain in chronological order (Go iterates `chain` from its last index down).
Each record is validated, then its internal blocks are persisted; the first
failure aborts, keeping the blocks already persisted.  On success the
returned list is the processed chain in chronological order (`tRecords`). -/
def processChain (env : Env) (validate : Bool) (s : St) :
    List Rec → St × Except Err (List Rec)
  | [] => (s, .ok [])
  | r :: rest =>
    match validateRecord env validate r with
    | .error e => (s, .error e)
    | .ok () =>
      let p := processChain env validate (addBlocks s r) rest
      (p.1, p.2.map (fun l => r :: l))

/-- `loadRecords` (net.go:952-1078) for one `(thread, log)`: reject the
empty input; fast-exit when the last provided record is already known or has
an undefined CID; read the current head; build the chain (backward walk plus
gap fill); then validate each chain record in chronological order and
persist its internal blocks.  Returns the processed records (chronological)
together with the head that was read. -/
def loadRecords (env : Env) (s : St) (recs : List Rec) (fuel : Nat) :
    St × Except Err (List Rec × Option Nat) :=
  match recs.getLast? with
  | none => (s, .error .emptyChain)
  | some last =>
    if isKnown s last.cid ∨ last.cid = none then (s, .ok ([], none))
    else
      let head := s.head
      match buildChain env head recs fuel with
      | .error e => (s, .error e)
      | .ok chain =>
        if chain.isEmpty then (s, .ok ([], head))
        else
          let p := processChain env (env.connected && env.readKey) s chain.reverse
          (p.1, p.2.map (fun tRecords => (tRecords, head)))

/-- `Add(ctx, record.Value())` (net.go:936): persist the record envelope,
marking the record known. -/
def addEnvelope (s : St) : Option Nat → St
  | none => s
  | some c => { s with cas := s.cas ++ [c] }

/-- The commit loop of `putRecords` (net.go:917-946), run under the
per-thread semaphore: for each record in chronological order, advance the
head to the record's CID, invoke `HandleNetRecord` when a connector is
attached (on failure return, leaving the head advanced), persist the record
envelope, and publish on the bus (on failure return).  Also returns the
trace of effects in program order. -/
def commitLoop (env : Env) (s : St) : List Rec → St × List Eff × Except Err Unit
  | [] => (s, [], .ok ())
  | r :: rest =>
    let s1 : St := { s with head := r.cid }
    if env.connected ∧ ¬ env.handleOk r then
      (s1, [.setHead r, .handle r], .error (.handleFailed r))
    else
      let tr0 : List Eff := if env.connected then [.setHead r, .handle r] else [.setHead r]
      let s2 := addEnvelope s1 r.cid
      if ¬ env.busOk r then
        (s2, tr0 ++ [.addEnv r], .error (.busFailed r))
      else
        let p := commitLoop env { s2 with bus := s2.bus ++ [r] } rest
        (p.1, tr0 ++ [.addEnv r, .emit r] ++ p.2.1, p.2.2)

/-- The state after one successful iteration of the commit loop on record
`r`: head advanced, envelope persisted, record published. -/
def stepSt (s : St) (r : Rec) : St :=
  let s2 := addEnvelope { s with head := r.cid } r.cid
  { s2 with bus := s2.bus ++ [r] }

/-- The effects of one successful iteration of the commit loop on `r`. -/
def stepTr (env : Env) (r : Rec) : List Eff :=
  (if env.connected then [.setHead r, .handle r] else [.setHead r]) ++ [.addEnv r, .emit r]

/-- The head recheck of `putRecords` (net.go:898-914): `chain[i].cid`
equal to the current head for the first such `i` yields the suffix
`chain[i+1:]`; no match yields `none`. -/
def fastForward (current : Option Nat) : List Rec → Option (List Rec)
  | [] => none
  | r :: rest => if r.cid = current then some rest else fastForward current rest

/-- The part of `putRecords` that runs after the per-thread semaphore is
acquired (net.go:897-948): recheck the head against the one read by
`loadRecords`; when it moved, fast-forward the chain past the record whose
CID equals the current head (returning success untouched when no such record
exists); then run the commit loop. -/
def commitRecords (env : Env) (s : St) (chain : List Rec) (head : Option Nat) :
    St × List Eff × Except Err Unit :=
  if s.head = head then commitLoop env s chain
  else
    match fastForward s.head chain with
    | some chain' => commitLoop env s chain'
    | none => (s, [], .ok ())

/-- `putRecords` (net.go:885-949): load and validate the chain (errors are
wrapped), return success on an empty chain, otherwise commit under the
semaphore. -/
def putRecords (env : Env) (s : St) (recs : List Rec) (fuel : Nat) :
    St × List Eff × Except Err Unit :=
  let p := loadRecords env s recs fuel
  match p.2 with
  | .error e => (p.1, [], .error (.loadFailed e))
  | .ok (chain, head) =>
    if chain.isEmpty then (p.1, [], .ok ())
    else commitRecords env p.1 chain head

/-- The walk of `getLocalRecords` (net.go:1180-1191): from the log head,
follow `prev` pointers while fewer than `limit` records were collected,
stopping at an undefined cursor or at the offset; each fetched record is
prepended, so the result is chronological.  A retrieval failure returns the
records fetched so far together with the error.  The Go loop runs at most
`limit` iterations (each adds exactly one record), so `limit` itself is the
structural bound. -/
def localWalk (env : Env) (off : Option Nat) :
    Option Nat → Nat → List Rec × Except Err Unit
  | _, 0 => ([], .ok ())
  | none, _ + 1 => ([], .ok ())
  | some c, k + 1 =>
    if some c = off then ([], .ok ())
    else
      match getRecordM env c with
      | none => ([], .error (.fetchFailed c))
      | some r =>
        let p := localWalk env off r.prev k
        (p.1 ++ [r], p.2)

/-- `getLocalRecords` (net.go:1147-1194) for one `(thread, log)` whose log
head is `s.head`: when the offset is defined but not in the blockstore,
return no records; otherwise require the service-key and walk from the
head. -/
def getLocalRecords (env : Env) (s : St) (off : Option Nat) (limit : Nat) :
    List Rec × Except Err Unit :=
  if off.isSome ∧ ¬ isKnown s off then ([], .ok ())
  else if ¬ env.serviceKey then ([], .error .noServiceKey)
  else localWalk env off s.head limit

/-- A chronological list of records is prev-linked starting from a head:
each record's `prev` is the CID before it, the first one pointing at the
given start. -/
def ChainLinked : Option Nat → List Rec → Prop
  | _, [] => True
  | h, r :: rest => r.prev = h ∧ ChainLinked r.cid rest

instance : ∀ (h : Option Nat) (l : List Rec), Decidable (ChainLinked h l)
  | _, [] => .isTrue trivial
  | h, r :: rest =>
    have : Decidable (ChainLinked r.cid rest) := instDecidableChainLinked r.cid rest
    inferInstanceAs (Decidable (_ ∧ _))

/-- The records whose CIDs a trace writes as heads, in order. -/
def setHeads (tr : List Eff) : List Rec :=
  tr.filterMap fun e => match e with | .setHead r => some r | _ => none

/-- A reversed (newest-first) record list descends from a head by `prev`
pointers through the record store `g`, never crossing the offset: the head
is the CID of the first record, each record's `prev` is the CID the next one
is stored under. -/
def descends (g : Nat → Option Rec) (off : Option Nat) :
    Option Nat → List Rec → Prop
  | _, [] => True
  | h, r :: older => (∃ c, h = some c ∧ some c ≠ off ∧ g c = some r) ∧
      descends g off r.prev older

/-- The cursor value at which the `getLocalRecords` walk stopped: the
`prev` of the oldest returned record, or the starting cursor when nothing
was returned. -/
def stopCursor (rs : List Rec) (c : Option Nat) : Option Nat :=
  match rs with
  | [] => c
  | oldest :: _ => oldest.prev

/-- Two environments that agree on every collaborator except body
decryption (`event.GetBody` with the read-key) and the connector's
`ValidateNetRecordBody`.  A pipeline run that is identical across all such
pairs provably never invokes either. -/
structure AgreeExceptBody (env₁ env₂ : Env) : Prop where
  connected : env₁.connected = env₂.connected
  readKey : env₁.readKey = env₂.readKey
  serviceKey : env₁.serviceKey = env₂.serviceKey
  fetch : env₁.fetch = env₂.fetch
  getBlockOk : env₁.getBlockOk = env₂.getBlockOk
  getHeaderOk : env₁.getHeaderOk = env₂.getHeaderOk
  getBodyOk : env₁.getBodyOk = env₂.getBodyOk
  pubKeyOk : env₁.pubKeyOk = env₂.pubKeyOk
  handleOk : env₁.handleOk = env₂.handleOk
  busOk : env₁.busOk = env₂.busOk

/-! ### Concrete fixtures

A three-record chain `rA ← rB ← rC` and an environment in which every
external step succeeds, used to instantiate the theorems below on concrete
inputs. -/

def rA : Rec := ⟨some 1, none, 101, 11, 12, 13⟩

def rB : Rec := ⟨some 2, some 1, 102, 21, 22, 23⟩

def rC : Rec := ⟨some 3, some 2, 103, 31, 32, 33⟩

def fetchABC : Nat → Option Rec := fun c =>
  if c = 1 then some rA else if c = 2 then some rB else if c = 3 then some rC else none

def envAll : Env :=
  ⟨true, true, true, fetchABC, fun _ => true, fun _ => true, fun _ => true,
    fun _ => true, fun _ => true, fun _ => true, fun _ => true, fun _ => true⟩

def st0 : St := ⟨none, [], []⟩

/-- A state whose log head is `rA` but whose blockstore does not contain
the CID `5`, used as the offset in the `getLocalRecords` scenarios. -/
def stA : St := ⟨some 1, [1], []⟩

/-- A state holding the fully ingested three-record chain. -/
def stFull : St := ⟨some 3, [1, 2, 3, 11, 12, 13, 21, 22, 23, 31, 32, 33], []⟩

instance {ε α : Type} [DecidableEq ε] [DecidableEq α] : DecidableEq (Except ε α) :=
  fun a b =>
  match a, b with
  | .ok x, .ok y => if h : x = y then .isTrue (by rw [h]) else .isFalse (by simp [h])
  | .error x, .error y => if h : x = y then .isTrue (by rw [h]) else .isFalse (by simp [h])
  | .ok _, .error _ => .isFalse (by simp)
  | .error _, .ok _ => .isFalse (by simp)

/-! ### Support lemmas -/

theorem processChain_head (env : Env) (v : Bool) (s : St) (l : List Rec) :
    (processChain env v s l).1.head = s.head := by
  induction l generalizing s with
  | nil => rfl
  | cons r rest ih =>
    simp only [processChain]
    cases hv : validateRecord env v r with
    | error e => rfl
    | ok u => simpa using ih (addBlocks s r)

theorem processChain_bus (env : Env) (v : Bool) (s : St) (l : List Rec) :
    (processChain env v s l).1.bus = s.bus := by
  induction l generalizing s with
  | nil => rfl
  | cons r rest ih =>
    simp only [processChain]
    cases hv : validateRecord env v r with
    | error e => rfl
    | ok u => simpa using ih (addBlocks s r)

theorem processChain_cas_mono (env : Env) (v : Bool) (s : St) (l : List Rec)
    (c : Nat) (h : c ∈ s.cas) : c ∈ (processChain env v s l).1.cas := by
  induction l generalizing s with
  | nil => exact h
  | cons r rest ih =>
    simp only [processChain]
    cases hv : validateRecord env v r with
    | error e => exact h
    | ok u =>
      simp only
      exact ih (addBlocks s r) (by simp [addBlocks, List.mem_append, h])

theorem processChain_cas_sub (env : Env) (v : Bool) (s : St) (l : List Rec)
    (c : Nat) (h : c ∈ (processChain env v s l).1.cas) :
    c ∈ s.cas ∨ ∃ r ∈ l, c = r.eventCid ∨ c = r.headerCid ∨ c = r.bodyCid := by
  induction l generalizing s with
  | nil => exact .inl h
  | cons r rest ih =>
    simp only [processChain] at h
    cases hv : validateRecord env v r with
    | error e => rw [hv] at h; exact .inl h
    | ok u =>
      rw [hv] at h
      simp only at h
      rcases ih (addBlocks s r) h with h' | ⟨r', hr', hc⟩
      · simp only [addBlocks, List.mem_append, List.mem_cons, List.mem_singleton] at h'
        rcases h' with h' | h'
        · exact .inl h'
        · exact .inr ⟨r, List.mem_cons_self .., by tauto⟩
      · exact .inr ⟨r', List.mem_cons_of_mem _ hr', hc⟩

theorem processChain_ok (env : Env) (v : Bool) (s : St) (l : List Rec)
    (h : ∀ r ∈ l, validateRecord env v r = .ok ()) :
    (processChain env v s l).2 = .ok l := by
  induction l generalizing s with
  | nil => rfl
  | cons r rest ih =>
    simp only [processChain, h r (List.mem_cons_self ..)]
    simp [Except.map, ih (addBlocks s r) (fun r' hr' => h r' (List.mem_cons_of_mem _ hr'))]

theorem processChain_ok_inv (env : Env) (v : Bool) (s : St) (l l' : List Rec)
    (h : (processChain env v s l).2 = .ok l') : l' = l := by
  induction l generalizing s l' with
  | nil => simpa [processChain] using h.symm
  | cons r rest ih =>
    simp only [processChain] at h
    cases hv : validateRecord env v r with
    | error e => rw [hv] at h; exact absurd h (by simp)
    | ok u =>
      rw [hv] at h
      simp only [Except.map] at h
      cases hp : (processChain env v (addBlocks s r) rest).2 with
      | error e => rw [hp] at h; exact absurd h (by simp)
      | ok l'' =>
        rw [hp] at h
        simp only [Except.ok.injEq] at h
        rw [← h, ih (addBlocks s r) l'' hp]

theorem validateRecord_fail_validateBody (env : Env) (r : Rec)
    (h : env.validateBody r = false) :
    ∃ e, validateRecord env true r = .error e := by
  unfold validateRecord
  by_cases h1 : env.getBlockOk r <;> by_cases h2 : env.getHeaderOk r <;>
    by_cases h3 : env.getBodyOk r <;> by_cases h4 : env.decryptBodyOk r <;>
    by_cases h5 : env.pubKeyOk r <;> simp_all

theorem processChain_error_of_mem (env : Env) (v : Bool) (s : St) (l : List Rec)
    (r : Rec) (hr : r ∈ l) (hfail : ∃ e, validateRecord env v r = .error e) :
    ∃ e, (processChain env v s l).2 = .error e := by
  induction l generalizing s with
  | nil => cases hr
  | cons r0 rest ih =>
    simp only [processChain]
    cases hv : validateRecord env v r0 with
    | error e => exact ⟨e, rfl⟩
    | ok u =>
      rcases List.mem_cons.mp hr with rfl | hr'
      · obtain ⟨e, he⟩ := hfail
        rw [hv] at he
        cases he
      · obtain ⟨e, he⟩ := ih (addBlocks s r0) hr'
        refine ⟨e, ?_⟩
        simp [Except.map, he]

theorem loadRecords_head (env : Env) (s : St) (recs : List Rec) (fuel : Nat) :
    (loadRecords env s recs fuel).1.head = s.head := by
  unfold loadRecords
  cases recs.getLast? with
  | none => rfl
  | some last =>
    simp only
    split
    · rfl
    · cases hb : buildChain env s.head recs fuel with
      | error e => rfl
      | ok chain =>
        simp only
        split
        · rfl
        · simp [processChain_head]

theorem loadRecords_bus (env : Env) (s : St) (recs : List Rec) (fuel : Nat) :
    (loadRecords env s recs fuel).1.bus = s.bus := by
  unfold loadRecords
  cases recs.getLast? with
  | none => rfl
  | some last =>
    simp only
    split
    · rfl
    · cases hb : buildChain env s.head recs fuel with
      | error e => rfl
      | ok chain =>
        simp only
        split
        · rfl
        · simp [processChain_bus]

theorem putRecords_load_error (env : Env) (s : St) (recs : List Rec) (fuel : Nat)
    (e : Err) (h : (loadRecords env s recs fuel).2 = .error e) :
    putRecords env s recs fuel =
      ((loadRecords env s recs fuel).1, [], .error (.loadFailed e)) := by
  unfold putRecords
  simp only [h]

theorem putRecords_load_ok_empty (env : Env) (s : St) (recs : List Rec) (fuel : Nat)
    (head : Option Nat) (h : (loadRecords env s recs fuel).2 = .ok ([], head)) :
    putRecords env s recs fuel = ((loadRecords env s recs fuel).1, [], .ok ()) := by
  unfold putRecords
  simp only [h, List.isEmpty_nil, if_true]

theorem putRecords_load_ok (env : Env) (s : St) (recs : List Rec) (fuel : Nat)
    (chain : List Rec) (head : Option Nat) (hne : chain ≠ [])
    (h : (loadRecords env s recs fuel).2 = .ok (chain, head)) :
    putRecords env s recs fuel =
      commitRecords env (loadRecords env s recs fuel).1 chain head := by
  unfold putRecords
  simp only [h]
  rw [if_neg (by simpa [List.isEmpty_iff] using hne)]

theorem loadRecords_processing (env : Env) (s : St) (recs : List Rec) (fuel : Nat)
    (last : Rec) (chain : List Rec)
    (hl : recs.getLast? = some last) (hk : isKnown s last.cid = false)
    (hdef : last.cid ≠ none)
    (hchain : buildChain env s.head recs fuel = .ok chain) (hne : chain ≠ []) :
    loadRecords env s recs fuel =
      ((processChain env (env.connected && env.readKey) s chain.reverse).1,
       (processChain env (env.connected && env.readKey) s chain.reverse).2.map
         (fun t => (t, s.head))) := by
  unfold loadRecords
  rw [hl]
  simp only
  rw [if_neg (by simp [hk, hdef])]
  rw [hchain]
  simp only
  rw [if_neg (by simpa [List.isEmpty_iff] using hne)]

/-- C10: `putRecords` on the empty record list returns the
"cannot load empty record chain" error and leaves the head, the blockstore
and the bus untouched. -/
theorem putRecords_empty_input (env : Env) (s : St) (fuel : Nat) :
    putRecords env s [] fuel = (s, [], .error (.loadFailed .emptyChain)) := rfl

theorem putRecords_known_last (env : Env) (s : St) (recs : List Rec) (fuel : Nat)
    (last : Rec) (hl : recs.getLast? = some last)
    (h : isKnown s last.cid = true ∨ last.cid = none) :
    putRecords env s recs fuel = (s, [], .ok ()) := by
  have hload : loadRecords env s recs fuel = (s, .ok ([], none)) := by
    unfold loadRecords
    rw [hl]
    simp only
    rw [if_pos (by simpa using h)]
  unfold putRecords
  simp only [hload, List.isEmpty_nil, if_true]

/-- C7: when the last provided record is already known to the blockstore or
has an undefined CID, `putRecords` returns success with the state
untouched — no head advance, no blockstore write, no bus emission — and the
commit phase (the code under the semaphore) is never entered. -/
theorem putRecords_fast_exit (env : Env) (s : St) (recs : List Rec) (fuel : Nat)
    (last : Rec) (hl : recs.getLast? = some last)
    (h : isKnown s last.cid = true ∨ last.cid = none) :
    putRecords env s recs fuel = (s, [], .ok ()) :=
  putRecords_known_last env s recs fuel last hl h

/-- C7 witness. -/
theorem putRecords_fast_exit_witness :
    putRecords
      ⟨true, true, true, fun _ => none, fun _ => true, fun _ => true, fun _ => true,
        fun _ => true, fun _ => true, fun _ => true, fun _ => true, fun _ => true⟩
      ⟨some 1, [1], []⟩ [⟨some 1, none, 0, 2, 3, 4⟩] 5 =
      (⟨some 1, [1], []⟩, [], .ok ()) :=
  putRecords_fast_exit _ _ _ _ _ rfl (.inl rfl)

/-- C1: when a connector is attached and a read-key is available and the
connector's body validation fails for some record of the loaded chain, the
whole batch is aborted before any head mutation: `putRecords` returns an
error, the log head is unchanged, nothing is published, and no commit effect
is performed. -/
theorem putRecords_validate_failure (env : Env) (s : St) (recs : List Rec)
    (fuel : Nat) (last r : Rec) (chain : List Rec)
    (hconn : env.connected = true) (hrk : env.readKey = true)
    (hl : recs.getLast? = some last) (hk : isKnown s last.cid = false)
    (hdef : last.cid ≠ none)
    (hchain : buildChain env s.head recs fuel = .ok chain)
    (hr : r ∈ chain) (hfail : env.validateBody r = false) :
    (∃ e, (putRecords env s recs fuel).2.2 = .error e) ∧
    (putRecords env s recs fuel).1.head = s.head ∧
    (putRecords env s recs fuel).1.bus = s.bus ∧
    (putRecords env s recs fuel).2.1 = [] := by
  have hne : chain ≠ [] := fun h => by simp [h] at hr
  have hload := loadRecords_processing env s recs fuel last chain hl hk hdef hchain hne
  obtain ⟨e, he⟩ := processChain_error_of_mem env (env.connected && env.readKey) s
    chain.reverse r (List.mem_reverse.mpr hr)
    (by rw [hconn, hrk]; exact validateRecord_fail_validateBody env r hfail)
  have h2 : (loadRecords env s recs fuel).2 = .error e := by
    rw [hload]; simp [Except.map, he]
  have heq := putRecords_load_error env s recs fuel e h2
  refine ⟨⟨.loadFailed e, by rw [heq]⟩, ?_, ?_, by rw [heq]⟩
  · rw [heq]; exact loadRecords_head ..
  · rw [heq]; exact loadRecords_bus ..

/-- C1 witness: validation fails on the middle record of a three-record
batch. -/
theorem putRecords_validate_failure_witness :
    (∃ e, (putRecords { envAll with validateBody := fun r => r.cid ≠ some 2 }
        st0 [rA, rB, rC] 10).2.2 = .error e) ∧
    (putRecords { envAll with validateBody := fun r => r.cid ≠ some 2 }
        st0 [rA, rB, rC] 10).1.head = st0.head ∧
    (putRecords { envAll with validateBody := fun r => r.cid ≠ some 2 }
        st0 [rA, rB, rC] 10).1.bus = st0.bus ∧
    (putRecords { envAll with validateBody := fun r => r.cid ≠ some 2 }
        st0 [rA, rB, rC] 10).2.1 = [] :=
  putRecords_validate_failure { envAll with validateBody := fun r => r.cid ≠ some 2 }
    st0 [rA, rB, rC] 10 rC rB [rC, rB, rA] rfl rfl rfl
    (by decide) (by decide) rfl (by decide) (by decide)

theorem fastForward_found (cur : Option Nat) (pre suf : List Rec) (r : Rec)
    (hpre : ∀ r' ∈ pre, r'.cid ≠ cur) (hr : r.cid = cur) :
    fastForward cur (pre ++ r :: suf) = some suf := by
  induction pre with
  | nil => simp [fastForward, hr]
  | cons x xs ih =>
    simp only [List.cons_append, fastForward]
    rw [if_neg (hpre x (List.mem_cons_self ..))]
    exact ih fun r' h => hpre r' (List.mem_cons_of_mem _ h)

theorem fastForward_none (cur : Option Nat) (chain : List Rec)
    (h : ∀ r ∈ chain, r.cid ≠ cur) : fastForward cur chain = none := by
  induction chain with
  | nil => rfl
  | cons x xs ih =>
    simp only [fastForward]
    rw [if_neg (h x (List.mem_cons_self ..))]
    exact ih fun r hh => h r (List.mem_cons_of_mem _ hh)

/-- C2: after the semaphore is acquired the head is rechecked.  When the
current head differs from the head read during `loadRecords`: (a) if some
record of the chain carries the current head's CID (take the first such),
exactly the records strictly after it are processed; (b) if no record of
the chain carries the current head, the call returns success and mutates
nothing. -/
theorem commitRecords_head_recheck (env : Env) (s : St) (chain : List Rec)
    (head : Option Nat) (hmoved : s.head ≠ head) :
    ((∀ r ∈ chain, r.cid ≠ s.head) →
      commitRecords env s chain head = (s, [], .ok ())) ∧
    (∀ pre r suf, chain = pre ++ r :: suf → r.cid = s.head →
      (∀ r' ∈ pre, r'.cid ≠ s.head) →
      commitRecords env s chain head = commitLoop env s suf) := by
  constructor
  · intro h
    unfold commitRecords
    rw [if_neg hmoved, fastForward_none s.head chain h]
  · intro pre r suf hch hr hpre
    unfold commitRecords
    rw [if_neg hmoved, hch, fastForward_found s.head pre suf r hpre hr]

/-- C2 witness: with the head moved to `rA`'s CID the chain is
fast-forwarded past `rA`; with the head moved to a CID absent from the
chain the call is a successful no-op. -/
theorem commitRecords_head_recheck_witness :
    commitRecords envAll ⟨some 9, [], []⟩ [rA, rB, rC] none =
      (⟨some 9, [], []⟩, [], .ok ()) ∧
    commitRecords envAll ⟨some 1, [], []⟩ [rA, rB, rC] none =
      commitLoop envAll ⟨some 1, [], []⟩ [rB, rC] :=
  ⟨(commitRecords_head_recheck envAll ⟨some 9, [], []⟩ [rA, rB, rC] none
      (by decide)).1 (by decide),
   (commitRecords_head_recheck envAll ⟨some 1, [], []⟩ [rA, rB, rC] none
      (by decide)).2 [] rA [rB, rC] rfl (by decide) (by simp)⟩

theorem commitLoop_cons_handleFail (env : Env) (s : St) (r : Rec) (rest : List Rec)
    (hc : env.connected = true) (hh : env.handleOk r = false) :
    commitLoop env s (r :: rest) =
      ({ s with head := r.cid }, [.setHead r, .handle r], .error (.handleFailed r)) := by
  simp only [commitLoop, if_pos (show env.connected ∧ ¬ env.handleOk r by simp [hc, hh])]

theorem commitLoop_cons_busFail (env : Env) (s : St) (r : Rec) (rest : List Rec)
    (hA : ¬ (env.connected ∧ ¬ env.handleOk r)) (hB : env.busOk r = false) :
    commitLoop env s (r :: rest) =
      (addEnvelope { s with head := r.cid } r.cid,
       (if env.connected then [.setHead r, .handle r] else [.setHead r]) ++ [.addEnv r],
       .error (.busFailed r)) := by
  simp only [commitLoop, if_neg hA]
  rw [if_pos (by simp [hB])]

theorem commitLoop_cons_cont (env : Env) (s : St) (r : Rec) (rest : List Rec)
    (hA : ¬ (env.connected ∧ ¬ env.handleOk r)) (hB : env.busOk r = true) :
    commitLoop env s (r :: rest) =
      ((commitLoop env (stepSt s r) rest).1,
       stepTr env r ++ (commitLoop env (stepSt s r) rest).2.1,
       (commitLoop env (stepSt s r) rest).2.2) := by
  simp only [commitLoop, if_neg hA]
  rw [if_neg (by simp [hB])]
  simp [stepSt, stepTr, List.append_assoc]

/-- C3: in the commit loop, the head is advanced to a record's CID strictly
before `HandleNetRecord` is invoked for it; if handling fails for record
`r`, the loop aborts returning the handling error, the head is left
advanced to `r`'s CID, and no effect is performed for any record after
`r` — the whole run consists of the prefix before `r` (which succeeded)
followed only by the head advance and the failed handling of `r`. -/
theorem commitLoop_handle_failure (env : Env) (s : St) (l : List Rec) (r : Rec)
    (h : (commitLoop env s l).2.2 = .error (.handleFailed r)) :
    env.connected = true ∧ env.handleOk r = false ∧
    ∃ pre suf, l = pre ++ r :: suf ∧
      (commitLoop env s pre).2.2 = .ok () ∧
      (commitLoop env s l).1 = { (commitLoop env s pre).1 with head := r.cid } ∧
      (commitLoop env s l).2.1 =
        (commitLoop env s pre).2.1 ++ [.setHead r, .handle r] := by
  induction l generalizing s with
  | nil => simp [commitLoop] at h
  | cons r0 rest ih =>
    by_cases hA : env.connected ∧ ¬ env.handleOk r0
    · have hc : env.connected = true := hA.1
      have hh : env.handleOk r0 = false := Bool.eq_false_iff.mpr hA.2
      have hl := commitLoop_cons_handleFail env s r0 rest hc hh
      rw [hl] at h
      simp only [Except.error.injEq, Err.handleFailed.injEq] at h
      subst h
      refine ⟨hc, hh, [], rest, rfl, rfl, ?_, ?_⟩
      · rw [hl]; simp [commitLoop]
      · rw [hl]; simp [commitLoop]
    · by_cases hB : env.busOk r0
      · have hl := commitLoop_cons_cont env s r0 rest hA hB
        rw [hl] at h
        simp only at h
        obtain ⟨hc, hh, pre, suf, hrest, hpre, hst, htr⟩ := ih (stepSt s r0) h
        refine ⟨hc, hh, r0 :: pre, suf, by rw [hrest]; rfl, ?_, ?_, ?_⟩
        · rw [commitLoop_cons_cont env s r0 pre hA hB]
          simpa using hpre
        · rw [hl, commitLoop_cons_cont env s r0 pre hA hB]
          simpa using hst
        · rw [hl, commitLoop_cons_cont env s r0 pre hA hB]
          simp only [htr]
          simp [List.append_assoc]
      · have hl := commitLoop_cons_busFail env s r0 rest hA (Bool.eq_false_iff.mpr hB)
        rw [hl] at h
        simp at h

/-- C3 witness: handling fails on the middle record of a three-record
chain. -/
theorem commitLoop_handle_failure_witness :
    { envAll with handleOk := fun r => r.cid ≠ some 2 }.connected = true ∧
    { envAll with handleOk := fun r => r.cid ≠ some 2 }.handleOk rB = false ∧
    ∃ pre suf, [rA, rB, rC] = pre ++ rB :: suf ∧
      (commitLoop { envAll with handleOk := fun r => r.cid ≠ some 2 } st0 pre).2.2 =
        .ok () ∧
      (commitLoop { envAll with handleOk := fun r => r.cid ≠ some 2 } st0
          [rA, rB, rC]).1 =
        { (commitLoop { envAll with handleOk := fun r => r.cid ≠ some 2 } st0
            pre).1 with head := rB.cid } ∧
      (commitLoop { envAll with handleOk := fun r => r.cid ≠ some 2 } st0
          [rA, rB, rC]).2.1 =
        (commitLoop { envAll with handleOk := fun r => r.cid ≠ some 2 } st0
            pre).2.1 ++ [.setHead rB, .handle rB] :=
  commitLoop_handle_failure { envAll with handleOk := fun r => r.cid ≠ some 2 }
    st0 [rA, rB, rC] rB rfl

theorem setHeads_append (a b : List Eff) :
    setHeads (a ++ b) = setHeads a ++ setHeads b := by
  simp [setHeads]

theorem setHeads_stepTr (env : Env) (r : Rec) : setHeads (stepTr env r) = [r] := by
  cases hc : env.connected <;> simp [stepTr, setHeads, hc]

theorem stepSt_head (s : St) (r : Rec) : (stepSt s r).head = r.cid := by
  cases hc : r.cid <;> simp [stepSt, addEnvelope, hc]

theorem chainLinked_suffix (h0 : Option Nat) (pre suf : List Rec) (r : Rec)
    (h : ChainLinked h0 (pre ++ r :: suf)) : ChainLinked r.cid suf := by
  induction pre generalizing h0 with
  | nil => exact h.2
  | cons x xs ih => exact ih x.cid h.2

theorem fastForward_chainLinked (cur h0 : Option Nat) (chain suf : List Rec)
    (h : ChainLinked h0 chain) (hf : fastForward cur chain = some suf) :
    ChainLinked cur suf := by
  induction chain generalizing h0 with
  | nil => cases hf
  | cons r rest ih =>
    simp only [fastForward] at hf
    by_cases hr : r.cid = cur
    · rw [if_pos hr] at hf
      cases hf
      exact hr ▸ h.2
    · rw [if_neg hr] at hf
      exact ih r.cid h.2 hf

theorem setHeads_commitLoop_linked (env : Env) (s : St) (l : List Rec)
    (h : ChainLinked s.head l) :
    ChainLinked s.head (setHeads (commitLoop env s l).2.1) := by
  induction l generalizing s with
  | nil => simp [commitLoop, setHeads]; trivial
  | cons r rest ih =>
    by_cases hA : env.connected ∧ ¬ env.handleOk r
    · rw [commitLoop_cons_handleFail env s r rest hA.1 (Bool.eq_false_iff.mpr hA.2)]
      exact ⟨h.1, trivial⟩
    · by_cases hB : env.busOk r
      · rw [commitLoop_cons_cont env s r rest hA hB]
        simp only [setHeads_append, setHeads_stepTr, List.singleton_append]
        refine ⟨h.1, ?_⟩
        have := ih (stepSt s r) (by rw [stepSt_head]; exact h.2)
        rwa [stepSt_head] at this
      · rw [commitLoop_cons_busFail env s r rest hA (Bool.eq_false_iff.mpr hB)]
        simp only
        cases hc : env.connected <;>
          simp only [hc, if_true, if_false, setHeads_append] <;>
          exact ⟨h.1, trivial⟩

theorem commitRecords_linked (env : Env) (s : St) (chain : List Rec)
    (head : Option Nat) (h : ChainLinked head chain) :
    ChainLinked s.head (setHeads (commitRecords env s chain head).2.1) := by
  unfold commitRecords
  by_cases he : s.head = head
  · rw [if_pos he]
    exact setHeads_commitLoop_linked env s chain (he ▸ h)
  · rw [if_neg he]
    cases hf : fastForward s.head chain with
    | none => simp [setHeads]; trivial
    | some suf =>
      exact setHeads_commitLoop_linked env s suf
        (fastForward_chainLinked s.head head chain suf h hf)

theorem loadRecords_ok_inv (env : Env) (s : St) (recs : List Rec) (fuel : Nat)
    (chainL : List Rec) (head : Option Nat)
    (h : (loadRecords env s recs fuel).2 = .ok (chainL, head)) (hne : chainL ≠ []) :
    head = s.head ∧
    (∃ last, recs.getLast? = some last ∧ isKnown s last.cid = false ∧
      last.cid ≠ none) ∧
    ∃ chain, buildChain env s.head recs fuel = .ok chain ∧ chainL = chain.reverse := by
  unfold loadRecords at h
  cases hg : recs.getLast? with
  | none => rw [hg] at h; simp at h
  | some last =>
    rw [hg] at h
    simp only at h
    by_cases hfe : isKnown s last.cid = true ∨ last.cid = none
    · rw [if_pos hfe] at h
      simp only [Except.ok.injEq, Prod.mk.injEq] at h
      exact absurd h.1.symm hne
    · rw [if_neg hfe] at h
      cases hb : buildChain env s.head recs fuel with
      | error e => rw [hb] at h; simp at h
      | ok chain =>
        rw [hb] at h
        simp only at h
        by_cases hemp : chain.isEmpty
        · rw [if_pos hemp] at h
          simp only [Except.ok.injEq, Prod.mk.injEq] at h
          exact absurd h.1.symm hne
        · rw [if_neg hemp] at h
          cases hp : (processChain env (env.connected && env.readKey) s chain.reverse).2 with
          | error e => rw [hp] at h; simp [Except.map] at h
          | ok t =>
            rw [hp] at h
            simp only [Except.map, Except.ok.injEq, Prod.mk.injEq] at h
            push_neg at hfe
            refine ⟨h.2.symm, ⟨last, rfl, by simpa using hfe.1, hfe.2⟩,
              chain, rfl, ?_⟩
            rw [← h.1, processChain_ok_inv env _ s chain.reverse t hp]

/-- C4 (head monotonicity, I2): within a `putRecords` run whose loaded
chain is prev-linked to the pre-call head — which holds whenever the inputs
come from the log's authored chain — the sequence of head values written by
`SetHead` is itself prev-linked starting at the pre-call head: every write
advances the head to the CID of a record whose `prev` is exactly the
previous head, so the previous head stays reachable through `prev` pointers
and the head is never rewound. -/
theorem putRecords_head_monotone (env : Env) (s : St) (recs : List Rec)
    (fuel : Nat) (chain : List Rec)
    (hchain : buildChain env s.head recs fuel = .ok chain)
    (hlink : ChainLinked s.head chain.reverse) :
    ChainLinked s.head (setHeads (putRecords env s recs fuel).2.1) := by
  cases hres : (loadRecords env s recs fuel).2 with
  | error e =>
    rw [putRecords_load_error env s recs fuel e hres]
    simp [setHeads]; trivial
  | ok p =>
    obtain ⟨chainL, head⟩ := p
    by_cases hne : chainL = []
    · subst hne
      rw [putRecords_load_ok_empty env s recs fuel head hres]
      simp [setHeads]; trivial
    · obtain ⟨hh, _, chain', hb', hchainL⟩ :=
        loadRecords_ok_inv env s recs fuel chainL head hres hne
      subst hh
      rw [hchain] at hb'
      cases hb'
      rw [putRecords_load_ok env s recs fuel chainL s.head hne hres]
      have hs' : (loadRecords env s recs fuel).1.head = s.head :=
        loadRecords_head env s recs fuel
      have := commitRecords_linked env (loadRecords env s recs fuel).1 chainL s.head
        (hchainL ▸ hlink)
      rwa [hs'] at this

/-- C4 witness: ingesting the linked chain `rA, rB, rC` from an empty log
yields head writes that are prev-linked starting at the empty head. -/
theorem putRecords_head_monotone_witness :
    ChainLinked st0.head (setHeads (putRecords envAll st0 [rA, rB, rC] 10).2.1) :=
  putRecords_head_monotone envAll st0 [rA, rB, rC] 10 [rC, rB, rA] rfl (by decide)

theorem stepSt_cas (s : St) (r : Rec) : (stepSt s r).cas = s.cas ++ r.cid.toList := by
  cases hc : r.cid <;> simp [stepSt, addEnvelope, hc]

theorem addEnv_mem_stepTr (env : Env) (r : Rec) : Eff.addEnv r ∈ stepTr env r := by
  cases hc : env.connected <;> simp [stepTr, hc]

theorem commitLoop_cas_src (env : Env) (s : St) (l : List Rec) (c : Nat)
    (h : c ∈ (commitLoop env s l).1.cas) :
    c ∈ s.cas ∨ ∃ r, Eff.addEnv r ∈ (commitLoop env s l).2.1 ∧ r.cid = some c := by
  induction l generalizing s with
  | nil => exact .inl h
  | cons r rest ih =>
    by_cases hA : env.connected ∧ ¬ env.handleOk r
    · rw [commitLoop_cons_handleFail env s r rest hA.1 (Bool.eq_false_iff.mpr hA.2)] at h ⊢
      exact .inl h
    · by_cases hB : env.busOk r
      · rw [commitLoop_cons_cont env s r rest hA hB] at h ⊢
        simp only at h ⊢
        rcases ih (stepSt s r) h with h1 | ⟨r', htr, hcid⟩
        · rw [stepSt_cas] at h1
          rcases List.mem_append.mp h1 with h2 | h2
          · exact .inl h2
          · refine .inr ⟨r, List.mem_append_left _ (addEnv_mem_stepTr env r), ?_⟩
            cases hc2 : r.cid <;> rw [hc2] at h2 <;> simp_all
        · exact .inr ⟨r', List.mem_append_right _ htr, hcid⟩
      · rw [commitLoop_cons_busFail env s r rest hA (Bool.eq_false_iff.mpr hB)] at h ⊢
        simp only at h ⊢
        cases hc2 : r.cid with
        | none => simp only [addEnvelope, hc2] at h; exact .inl h
        | some c' =>
          simp only [addEnvelope, hc2, List.mem_append, List.mem_singleton] at h
          rcases h with h2 | h2
          · exact .inl h2
          · subst h2
            exact .inr ⟨r, by simp, hc2⟩

theorem commitLoop_envelope_order (env : Env) (s : St) (l : List Rec)
    (hc : env.connected = true) (r : Rec)
    (h : Eff.addEnv r ∈ (commitLoop env s l).2.1) :
    env.handleOk r = true ∧
    [Eff.setHead r, Eff.handle r, Eff.addEnv r].Sublist (commitLoop env s l).2.1 := by
  induction l generalizing s with
  | nil => simp [commitLoop] at h
  | cons r0 rest ih =>
    by_cases hA : env.connected ∧ ¬ env.handleOk r0
    · rw [commitLoop_cons_handleFail env s r0 rest hA.1 (Bool.eq_false_iff.mpr hA.2)] at h
      simp at h
    · have hh0 : env.handleOk r0 = true := by
        rcases Bool.eq_false_or_eq_true (env.handleOk r0) with ht | hf
        · exact ht
        · exact absurd ⟨hc, by simp [hf]⟩ hA
      by_cases hB : env.busOk r0
      · rw [commitLoop_cons_cont env s r0 rest hA hB] at h ⊢
        simp only at h ⊢
        rcases List.mem_append.mp h with h1 | h2
        · have hr : r = r0 := by simp [stepTr, hc] at h1; exact h1
          subst hr
          refine ⟨hh0, ?_⟩
          have h3 : [Eff.setHead r, Eff.handle r, Eff.addEnv r].Sublist (stepTr env r) := by
            simp only [stepTr, hc, if_true]
            exact List.sublist_append_left ..
          exact h3.trans (List.sublist_append_left ..)
        · obtain ⟨hok, hsub⟩ := ih (stepSt s r0) h2
          exact ⟨hok, hsub.trans (List.sublist_append_right ..)⟩
      · rw [commitLoop_cons_busFail env s r0 rest hA (Bool.eq_false_iff.mpr hB)] at h ⊢
        simp only [hc, if_true] at h ⊢
        have hr : r = r0 := by
          simp only [List.mem_append, List.mem_cons, List.not_mem_nil] at h
          rcases h with (h1 | h1 | h1) | h1 <;> simp_all
        subst hr
        exact ⟨hh0, List.Sublist.refl _⟩

theorem commitRecords_envelope_order (env : Env) (s : St) (chain : List Rec)
    (head : Option Nat) (hc : env.connected = true) (r : Rec)
    (h : Eff.addEnv r ∈ (commitRecords env s chain head).2.1) :
    env.handleOk r = true ∧
    [Eff.setHead r, Eff.handle r, Eff.addEnv r].Sublist
      (commitRecords env s chain head).2.1 := by
  unfold commitRecords at h ⊢
  by_cases he : s.head = head
  · rw [if_pos he] at h ⊢
    exact commitLoop_envelope_order env s chain hc r h
  · rw [if_neg he] at h ⊢
    generalize hf : fastForward s.head chain = fo at h ⊢
    cases fo with
    | none => simp at h
    | some suf => exact commitLoop_envelope_order env s suf hc r h

theorem commitRecords_cas_src (env : Env) (s : St) (chain : List Rec)
    (head : Option Nat) (c : Nat)
    (h : c ∈ (commitRecords env s chain head).1.cas) :
    c ∈ s.cas ∨
      ∃ r, Eff.addEnv r ∈ (commitRecords env s chain head).2.1 ∧ r.cid = some c := by
  unfold commitRecords at h ⊢
  by_cases he : s.head = head
  · rw [if_pos he] at h ⊢
    exact commitLoop_cas_src env s chain c h
  · rw [if_neg he] at h ⊢
    generalize hf : fastForward s.head chain = fo at h ⊢
    cases fo with
    | none => exact .inl (by simpa using h)
    | some suf => exact commitLoop_cas_src env s suf c h

theorem loadRecords_cas_src (env : Env) (s : St) (recs : List Rec) (fuel : Nat)
    (c : Nat) (h : c ∈ (loadRecords env s recs fuel).1.cas) :
    c ∈ s.cas ∨ ∃ chain, buildChain env s.head recs fuel = .ok chain ∧
      ∃ r ∈ chain, c = r.eventCid ∨ c = r.headerCid ∨ c = r.bodyCid := by
  unfold loadRecords at h
  cases hg : recs.getLast? with
  | none => rw [hg] at h; exact .inl h
  | some last =>
    rw [hg] at h
    simp only at h
    by_cases hfe : isKnown s last.cid = true ∨ last.cid = none
    · rw [if_pos hfe] at h
      exact .inl h
    · rw [if_neg hfe] at h
      cases hb : buildChain env s.head recs fuel with
      | error e => rw [hb] at h; exact .inl h
      | ok chain =>
        rw [hb] at h
        simp only at h
        by_cases hemp : chain.isEmpty
        · rw [if_pos hemp] at h
          exact .inl h
        · rw [if_neg hemp] at h
          simp only at h
          rcases processChain_cas_sub env (env.connected && env.readKey) s
              chain.reverse c h with h1 | ⟨r, hr, hc2⟩
          · exact .inl h1
          · exact .inr ⟨chain, rfl, r, List.mem_reverse.mp hr, hc2⟩

/-- C5 (envelope-after-handle, I4): with a connector attached, a record's
envelope is added to the blockstore only after the connector successfully
handled it and the head was advanced to it (the three effects occur in that
order in the trace); and every CID present in the blockstore after the call
was either there before, or is the envelope of a record whose `addEnv`
effect appears in the trace (hence fully processed), or is an internal
event/header/body block of the loaded chain — so a freshly `isKnown`
envelope CID implies complete processing of its record. -/
theorem putRecords_envelope_after_handle (env : Env) (s : St) (recs : List Rec)
    (fuel : Nat) (hc : env.connected = true) :
    (∀ r, Eff.addEnv r ∈ (putRecords env s recs fuel).2.1 →
      env.handleOk r = true ∧
      [Eff.setHead r, Eff.handle r, Eff.addEnv r].Sublist
        (putRecords env s recs fuel).2.1) ∧
    (∀ c, c ∈ (putRecords env s recs fuel).1.cas →
      c ∈ s.cas ∨
      (∃ r, Eff.addEnv r ∈ (putRecords env s recs fuel).2.1 ∧ r.cid = some c) ∨
      (∃ chain, buildChain env s.head recs fuel = .ok chain ∧
        ∃ r ∈ chain, c = r.eventCid ∨ c = r.headerCid ∨ c = r.bodyCid)) := by
  cases hres : (loadRecords env s recs fuel).2 with
  | error e =>
    rw [putRecords_load_error env s recs fuel e hres]
    constructor
    · intro r hr; simp at hr
    · intro c hcc
      rcases loadRecords_cas_src env s recs fuel c hcc with h1 | h2
      · exact .inl h1
      · exact .inr (.inr h2)
  | ok p =>
    obtain ⟨chainL, head⟩ := p
    by_cases hne : chainL = []
    · subst hne
      rw [putRecords_load_ok_empty env s recs fuel head hres]
      constructor
      · intro r hr; simp at hr
      · intro c hcc
        rcases loadRecords_cas_src env s recs fuel c hcc with h1 | h2
        · exact .inl h1
        · exact .inr (.inr h2)
    · rw [putRecords_load_ok env s recs fuel chainL head hne hres]
      constructor
      · intro r hr
        exact commitRecords_envelope_order env _ chainL head hc r hr
      · intro c hcc
        rcases commitRecords_cas_src env _ chainL head c hcc with h1 | h2
        · rcases loadRecords_cas_src env s recs fuel c h1 with h3 | h4
          · exact .inl h3
          · exact .inr (.inr h4)
        · exact .inr (.inl h2)

/-- C5 witness: in a successful three-record ingestion, `rB`'s envelope
write appears only after its head advance and successful handling. -/
theorem putRecords_envelope_after_handle_witness :
    envAll.handleOk rB = true ∧
    [Eff.setHead rB, Eff.handle rB, Eff.addEnv rB].Sublist
      (putRecords envAll st0 [rA, rB, rC] 10).2.1 :=
  (putRecords_envelope_after_handle envAll st0 [rA, rB, rC] 10 rfl).1 rB (by decide)

theorem commitLoop_cas_mono (env : Env) (s : St) (l : List Rec) (c : Nat)
    (h : c ∈ s.cas) : c ∈ (commitLoop env s l).1.cas := by
  induction l generalizing s with
  | nil => exact h
  | cons r rest ih =>
    by_cases hA : env.connected ∧ ¬ env.handleOk r
    · rw [commitLoop_cons_handleFail env s r rest hA.1 (Bool.eq_false_iff.mpr hA.2)]
      exact h
    · by_cases hB : env.busOk r
      · rw [commitLoop_cons_cont env s r rest hA hB]
        exact ih (stepSt s r) (by rw [stepSt_cas]; exact List.mem_append_left _ h)
      · rw [commitLoop_cons_busFail env s r rest hA (Bool.eq_false_iff.mpr hB)]
        cases hc2 : r.cid <;> simp [addEnvelope, hc2, h]

theorem commitLoop_ok_envelopes (env : Env) (s : St) (l : List Rec)
    (hok : (commitLoop env s l).2.2 = .ok ()) (r : Rec) (hr : r ∈ l) (c : Nat)
    (hc : r.cid = some c) : c ∈ (commitLoop env s l).1.cas := by
  induction l generalizing s with
  | nil => cases hr
  | cons r0 rest ih =>
    by_cases hA : env.connected ∧ ¬ env.handleOk r0
    · rw [commitLoop_cons_handleFail env s r0 rest hA.1 (Bool.eq_false_iff.mpr hA.2)]
        at hok
      simp at hok
    · by_cases hB : env.busOk r0
      · rw [commitLoop_cons_cont env s r0 rest hA hB] at hok ⊢
        simp only at hok ⊢
        rcases List.mem_cons.mp hr with rfl | hr'
        · exact commitLoop_cas_mono env (stepSt s r) rest c
            (by rw [stepSt_cas, hc]; simp)
        · exact ih (stepSt s r0) hok hr'
      · rw [commitLoop_cons_busFail env s r0 rest hA (Bool.eq_false_iff.mpr hB)] at hok
        simp at hok

theorem buildChain_cons (env : Env) (head : Option Nat) (recs : List Rec)
    (fuel : Nat) (last : Rec) (chain : List Rec)
    (hg : recs.getLast? = some last) (hd1 : last.cid ≠ none) (hd2 : last.cid ≠ head)
    (hb : buildChain env head recs fuel = .ok chain) :
    ∃ tail, chain = last :: tail := by
  obtain ⟨t, hrev⟩ : ∃ t, recs.reverse = last :: t := by
    cases hrv : recs.reverse with
    | nil =>
      rw [List.reverse_eq_nil_iff] at hrv
      rw [hrv] at hg
      cases hg
    | cons a t =>
      have ha : recs.getLast? = some a := by
        rw [← List.head?_reverse, hrv]; rfl
      rw [hg] at ha
      cases ha
      exact ⟨t, rfl⟩
  unfold buildChain at hb
  rw [hrev] at hb
  simp only [walkBack] at hb
  rw [if_neg (show ¬(last.cid = none ∨ last.cid = head) by simp [hd1, hd2])] at hb
  simp only at hb
  by_cases hcomp : (walkBack head t).2
  · rw [if_pos hcomp] at hb
    simp only [Except.ok.injEq] at hb
    exact ⟨(walkBack head t).1, hb.symm⟩
  · rw [if_neg hcomp] at hb
    cases hga : (last :: (walkBack head t).1).getLast? with
    | none => simp at hga
    | some oldest =>
      rw [hga] at hb
      simp only at hb
      cases hgf : gapFill env head oldest.prev fuel with
      | error e => rw [hgf] at hb; cases hb
      | ok gap =>
        rw [hgf] at hb
        simp only [Except.map, Except.ok.injEq] at hb
        exact ⟨(walkBack head t).1 ++ gap, hb.symm⟩

theorem buildChain_last_is_head (env : Env) (head : Option Nat) (recs : List Rec)
    (fuel : Nat) (last : Rec)
    (hg : recs.getLast? = some last) (hd2 : last.cid = head) :
    buildChain env head recs fuel = .ok [] := by
  obtain ⟨t, hrev⟩ : ∃ t, recs.reverse = last :: t := by
    cases hrv : recs.reverse with
    | nil =>
      rw [List.reverse_eq_nil_iff] at hrv
      rw [hrv] at hg
      cases hg
    | cons a t =>
      have ha : recs.getLast? = some a := by
        rw [← List.head?_reverse, hrv]; rfl
      rw [hg] at ha
      cases ha
      exact ⟨t, rfl⟩
  unfold buildChain
  rw [hrev]
  simp only [walkBack]
  rw [if_pos (Or.inr hd2)]
  rfl

theorem loadRecords_ok_empty_state (env : Env) (s : St) (recs : List Rec)
    (fuel : Nat) (head : Option Nat)
    (h : (loadRecords env s recs fuel).2 = .ok ([], head)) :
    (loadRecords env s recs fuel).1 = s := by
  unfold loadRecords at h ⊢
  cases hg : recs.getLast? with
  | none => rfl
  | some last =>
    rw [hg] at h
    simp only at h ⊢
    by_cases hfe : isKnown s last.cid = true ∨ last.cid = none
    · rw [if_pos hfe]
    · rw [if_neg hfe] at h ⊢
      cases hb : buildChain env s.head recs fuel with
      | error e => rfl
      | ok chain =>
        rw [hb] at h
        simp only at h ⊢
        by_cases hemp : chain.isEmpty
        · rw [if_pos hemp]
        · rw [if_neg hemp] at h ⊢
          simp only at h ⊢
          cases hp : (processChain env (env.connected && env.readKey) s
              chain.reverse).2 with
          | error e => rw [hp] at h; simp [Except.map] at h
          | ok t =>
            rw [hp] at h
            simp only [Except.map, Except.ok.injEq, Prod.mk.injEq] at h
            have := processChain_ok_inv env _ s chain.reverse t hp
            rw [this] at h
            exact absurd (List.reverse_eq_nil_iff.mp h.1)
              (by simpa [List.isEmpty_iff] using hemp)

theorem isKnown_mem (s : St) (c : Nat) (h : c ∈ s.cas) :
    isKnown s (some c) = true := by
  simpa [isKnown] using h

/-- C6 (idempotence): if a `putRecords` call succeeds, running the same call
again on the resulting state is a successful no-op — the final head, the
blockstore and the bus are unchanged, and no effect (in particular no bus
emission and no head write) is performed, so each record is emitted exactly
once across the two runs. -/
theorem putRecords_idempotent (env : Env) (s : St) (recs : List Rec) (fuel : Nat)
    (hne : recs ≠ [])
    (hok : (putRecords env s recs fuel).2.2 = .ok ()) :
    putRecords env (putRecords env s recs fuel).1 recs fuel =
      ((putRecords env s recs fuel).1, [], .ok ()) := by
  cases hres : (loadRecords env s recs fuel).2 with
  | error e =>
    rw [putRecords_load_error env s recs fuel e hres] at hok
    cases hok
  | ok p =>
    obtain ⟨chainL, head⟩ := p
    by_cases hempty : chainL = []
    · subst hempty
      have hput2 : putRecords env s recs fuel = (s, [], .ok ()) := by
        rw [putRecords_load_ok_empty env s recs fuel head hres,
          loadRecords_ok_empty_state env s recs fuel head hres]
      rw [hput2]
      exact hput2
    · obtain ⟨hh, ⟨last, hg, hk, hd1⟩, chain, hb, hchainL⟩ :=
        loadRecords_ok_inv env s recs fuel chainL head hres hempty
      subst hh
      have hput := putRecords_load_ok env s recs fuel chainL s.head hempty hres
      have hd2 : last.cid ≠ s.head := by
        intro hcontra
        rw [buildChain_last_is_head env s.head recs fuel last hg hcontra] at hb
        cases hb
        exact hempty (by rw [hchainL]; rfl)
      obtain ⟨tail, htail⟩ :=
        buildChain_cons env s.head recs fuel last chain hg hd1 hd2 hb
      have hmem : last ∈ chainL := by
        rw [hchainL, htail]
        exact List.mem_reverse.mpr (List.mem_cons_self ..)
      have hcr : commitRecords env (loadRecords env s recs fuel).1 chainL s.head =
          commitLoop env (loadRecords env s recs fuel).1 chainL := by
        unfold commitRecords
        rw [if_pos (loadRecords_head env s recs fuel)]
      rw [hput, hcr] at hok ⊢
      obtain ⟨c, hc⟩ : ∃ c, last.cid = some c := by
        cases hlc : last.cid with
        | none => exact absurd hlc hd1
        | some c => exact ⟨c, rfl⟩
      have hknown : c ∈ (commitLoop env (loadRecords env s recs fuel).1 chainL).1.cas :=
        commitLoop_ok_envelopes env (loadRecords env s recs fuel).1 chainL hok
          last hmem c hc
      refine putRecords_known_last env _ recs fuel last hg (.inl ?_)
      rw [hc]
      exact isKnown_mem _ c hknown

/-- C6 witness: a successful three-record ingestion followed by the same
call again is a no-op with identical final state. -/
theorem putRecords_idempotent_witness :
    ([rA, rB, rC] : List Rec) ≠ [] ∧
    putRecords envAll (putRecords envAll st0 [rA, rB, rC] 10).1 [rA, rB, rC] 10 =
      ((putRecords envAll st0 [rA, rB, rC] 10).1, [], .ok ()) :=
  ⟨by decide, putRecords_idempotent envAll st0 [rA, rB, rC] 10 (by decide) rfl⟩

theorem getRecordM_congr {env₁ env₂ : Env} (h : AgreeExceptBody env₁ env₂) :
    getRecordM env₁ = getRecordM env₂ := by
  funext c
  unfold getRecordM
  rw [h.serviceKey, h.fetch]

theorem gapFill_congr {env₁ env₂ : Env} (h : AgreeExceptBody env₁ env₂)
    (head : Option Nat) (c : Option Nat) (fuel : Nat) :
    gapFill env₁ head c fuel = gapFill env₂ head c fuel := by
  induction fuel generalizing c with
  | zero => cases c <;> rfl
  | succ n ih =>
    cases c with
    | none => rfl
    | some cv =>
      simp only [gapFill]
      rw [getRecordM_congr h]
      split
      · rfl
      · cases hr : getRecordM env₂ cv with
        | none => rfl
        | some r => simp only [ih r.prev]

theorem buildChain_congr {env₁ env₂ : Env} (h : AgreeExceptBody env₁ env₂)
    (head : Option Nat) (recs : List Rec) (fuel : Nat) :
    buildChain env₁ head recs fuel = buildChain env₂ head recs fuel := by
  unfold buildChain
  simp only
  split
  · rfl
  · cases (walkBack head recs.reverse).1.getLast? with
    | none => rfl
    | some oldest => simp only [gapFill_congr h]

theorem validateRecord_congr {env₁ env₂ : Env} (h : AgreeExceptBody env₁ env₂)
    (r : Rec) : validateRecord env₁ false r = validateRecord env₂ false r := by
  unfold validateRecord
  rw [h.getBlockOk, h.getHeaderOk, h.getBodyOk]
  simp

theorem processChain_congr {env₁ env₂ : Env} (h : AgreeExceptBody env₁ env₂)
    (s : St) (l : List Rec) :
    processChain env₁ false s l = processChain env₂ false s l := by
  induction l generalizing s with
  | nil => rfl
  | cons r rest ih =>
    simp only [processChain, validateRecord_congr h]
    cases validateRecord env₂ false r with
    | error e => rfl
    | ok u => simp only [ih (addBlocks s r)]

theorem stepTr_congr {env₁ env₂ : Env} (h : AgreeExceptBody env₁ env₂) (r : Rec) :
    stepTr env₁ r = stepTr env₂ r := by
  unfold stepTr
  rw [h.connected]

theorem commitLoop_congr {env₁ env₂ : Env} (h : AgreeExceptBody env₁ env₂)
    (s : St) (l : List Rec) : commitLoop env₁ s l = commitLoop env₂ s l := by
  induction l generalizing s with
  | nil => rfl
  | cons r rest ih =>
    by_cases hA : env₂.connected ∧ ¬ env₂.handleOk r
    · rw [commitLoop_cons_handleFail env₁ s r rest (by rw [h.connected]; exact hA.1)
          (by rw [h.handleOk]; exact Bool.eq_false_iff.mpr hA.2),
        commitLoop_cons_handleFail env₂ s r rest hA.1 (Bool.eq_false_iff.mpr hA.2)]
    · have hA₁ : ¬ (env₁.connected ∧ ¬ env₁.handleOk r) := by
        rw [h.connected, h.handleOk]; exact hA
      by_cases hB : env₂.busOk r
      · rw [commitLoop_cons_cont env₁ s r rest hA₁ (by rw [h.busOk]; exact hB),
          commitLoop_cons_cont env₂ s r rest hA hB, ih (stepSt s r), stepTr_congr h]
      · rw [commitLoop_cons_busFail env₁ s r rest hA₁
            (by rw [h.busOk]; exact Bool.eq_false_iff.mpr hB),
          commitLoop_cons_busFail env₂ s r rest hA (Bool.eq_false_iff.mpr hB),
          h.connected]

theorem commitRecords_congr {env₁ env₂ : Env} (h : AgreeExceptBody env₁ env₂)
    (s : St) (chain : List Rec) (head : Option Nat) :
    commitRecords env₁ s chain head = commitRecords env₂ s chain head := by
  unfold commitRecords
  split
  · exact commitLoop_congr h s chain
  · cases fastForward s.head chain with
    | none => rfl
    | some suf => exact commitLoop_congr h s suf

theorem loadRecords_congr {env₁ env₂ : Env} (h : AgreeExceptBody env₁ env₂)
    (hrk : env₂.readKey = false) (s : St) (recs : List Rec) (fuel : Nat) :
    loadRecords env₁ s recs fuel = loadRecords env₂ s recs fuel := by
  unfold loadRecords
  cases recs.getLast? with
  | none => rfl
  | some last =>
    simp only
    split
    · rfl
    · rw [buildChain_congr h]
      cases buildChain env₂ s.head recs fuel with
      | error e => rfl
      | ok chain =>
        simp only
        split
        · rfl
        · rw [show (env₁.connected && env₁.readKey) = false by
              rw [h.readKey, hrk, Bool.and_false],
            show (env₂.connected && env₂.readKey) = false by
              rw [hrk, Bool.and_false],
            processChain_congr h s chain.reverse]

theorem putRecords_congr {env₁ env₂ : Env} (h : AgreeExceptBody env₁ env₂)
    (hrk : env₂.readKey = false) (s : St) (recs : List Rec) (fuel : Nat) :
    putRecords env₁ s recs fuel = putRecords env₂ s recs fuel := by
  cases hq : (loadRecords env₂ s recs fuel).2 with
  | error e =>
    have hq₁ : (loadRecords env₁ s recs fuel).2 = .error e := by
      rw [loadRecords_congr h hrk]; exact hq
    rw [putRecords_load_error env₁ s recs fuel e hq₁,
      putRecords_load_error env₂ s recs fuel e hq, loadRecords_congr h hrk]
  | ok p =>
    obtain ⟨chain, head⟩ := p
    have hq₁ : (loadRecords env₁ s recs fuel).2 = .ok (chain, head) := by
      rw [loadRecords_congr h hrk]; exact hq
    by_cases hne : chain = []
    · subst hne
      rw [putRecords_load_ok_empty env₁ s recs fuel head hq₁,
        putRecords_load_ok_empty env₂ s recs fuel head hq, loadRecords_congr h hrk]
    · rw [putRecords_load_ok env₁ s recs fuel chain head hne hq₁,
        putRecords_load_ok env₂ s recs fuel chain head hne hq,
        loadRecords_congr h hrk, commitRecords_congr h]

theorem validateRecord_false_ok (env : Env) (r : Rec)
    (h1 : env.getBlockOk r = true) (h2 : env.getHeaderOk r = true)
    (h3 : env.getBodyOk r = true) : validateRecord env false r = .ok () := by
  unfold validateRecord
  simp [h1, h2, h3]

theorem commitLoop_ok_all (env : Env) (s : St) (l : List Rec)
    (hh : ∀ r ∈ l, env.connected = true → env.handleOk r = true)
    (hb : ∀ r ∈ l, env.busOk r = true) :
    (commitLoop env s l).2.2 = .ok () := by
  induction l generalizing s with
  | nil => rfl
  | cons r rest ih =>
    have hA : ¬ (env.connected ∧ ¬ env.handleOk r) := by
      rintro ⟨hc, hnh⟩
      exact hnh (hh r (List.mem_cons_self ..) hc)
    rw [commitLoop_cons_cont env s r rest hA (hb r (List.mem_cons_self ..))]
    exact ih (stepSt s r) (fun r' h' hc => hh r' (List.mem_cons_of_mem _ h') hc)
      (fun r' h' => hb r' (List.mem_cons_of_mem _ h'))

theorem commitLoop_ok_head (env : Env) (s : St) (l : List Rec) (rl : Rec)
    (hok : (commitLoop env s l).2.2 = .ok ()) (hrl : l.getLast? = some rl) :
    (commitLoop env s l).1.head = rl.cid := by
  induction l generalizing s with
  | nil => cases hrl
  | cons r rest ih =>
    by_cases hA : env.connected ∧ ¬ env.handleOk r
    · rw [commitLoop_cons_handleFail env s r rest hA.1 (Bool.eq_false_iff.mpr hA.2)]
        at hok
      simp at hok
    · by_cases hB : env.busOk r
      · rw [commitLoop_cons_cont env s r rest hA hB] at hok ⊢
        simp only at hok ⊢
        cases rest with
        | nil =>
          rw [← show r = rl by simpa using hrl]
          simpa [commitLoop] using stepSt_head s r
        | cons r2 rest2 =>
          exact ih (stepSt s r) hok (by simpa using hrl)
      · rw [commitLoop_cons_busFail env s r rest hA (Bool.eq_false_iff.mpr hB)] at hok
        simp at hok

/-- C9 (service-only threads): when the thread has no read-key, the
pipeline never decrypts a body and never invokes the connector's
`ValidateNetRecordBody` — the run is identical for any reinterpretation of
those two oracles — and, all other steps succeeding, the batch is ingested:
`putRecords` succeeds, the head is advanced to the newest record's CID, and
every record's envelope is stored. -/
theorem putRecords_service_only (env : Env) (s : St) (recs : List Rec)
    (fuel : Nat) (last r0 : Rec) (rest : List Rec)
    (hrk : env.readKey = false)
    (hblock : ∀ r, env.getBlockOk r = true)
    (hheader : ∀ r, env.getHeaderOk r = true)
    (hbody : ∀ r, env.getBodyOk r = true)
    (hhandle : ∀ r, env.handleOk r = true)
    (hbus : ∀ r, env.busOk r = true)
    (hl : recs.getLast? = some last) (hk : isKnown s last.cid = false)
    (hdef : last.cid ≠ none)
    (hchain : buildChain env s.head recs fuel = .ok (r0 :: rest)) :
    (∀ env', AgreeExceptBody env' env →
      putRecords env' s recs fuel = putRecords env s recs fuel) ∧
    (putRecords env s recs fuel).2.2 = .ok () ∧
    (putRecords env s recs fuel).1.head = r0.cid ∧
    (∀ r ∈ r0 :: rest, ∀ c, r.cid = some c →
      c ∈ (putRecords env s recs fuel).1.cas) := by
  have hload := loadRecords_processing env s recs fuel last (r0 :: rest) hl hk hdef
    hchain (by simp)
  have hvfalse : (env.connected && env.readKey) = false := by
    rw [hrk, Bool.and_false]
  have hpc : (processChain env (env.connected && env.readKey) s
      (r0 :: rest).reverse).2 = .ok ((r0 :: rest).reverse) := by
    rw [hvfalse]
    exact processChain_ok env false s (r0 :: rest).reverse
      (fun r _ => validateRecord_false_ok env r (hblock r) (hheader r) (hbody r))
  have hres : (loadRecords env s recs fuel).2 = .ok ((r0 :: rest).reverse, s.head) := by
    rw [hload]
    show Except.map _ (processChain env (env.connected && env.readKey) s
      (r0 :: rest).reverse).2 = _
    rw [hpc]
    rfl
  have hrevne : (r0 :: rest).reverse ≠ [] := by simp
  have hput := putRecords_load_ok env s recs fuel (r0 :: rest).reverse s.head
    hrevne hres
  have hcr : commitRecords env (loadRecords env s recs fuel).1
      ((r0 :: rest).reverse) s.head =
      commitLoop env (loadRecords env s recs fuel).1 ((r0 :: rest).reverse) := by
    unfold commitRecords
    rw [if_pos (loadRecords_head env s recs fuel)]
  have hok : (commitLoop env (loadRecords env s recs fuel).1
      ((r0 :: rest).reverse)).2.2 = .ok () :=
    commitLoop_ok_all env _ _ (fun r _ _ => hhandle r) (fun r _ => hbus r)
  refine ⟨fun env' hagree => putRecords_congr hagree hrk s recs fuel, ?_, ?_, ?_⟩
  · rw [hput, hcr]; exact hok
  · rw [hput, hcr]
    exact commitLoop_ok_head env _ _ r0 hok (by simp)
  · intro r hr c hc
    rw [hput, hcr]
    exact commitLoop_ok_envelopes env _ _ hok r (List.mem_reverse.mpr hr) c hc

/-- C9 witness: a connector is attached but the thread has no read-key;
body validation is reinterpreted as always-failing without changing the
run, and the three-record batch is ingested with the head advanced. -/
theorem putRecords_service_only_witness :
    (putRecords { envAll with readKey := false, validateBody := fun _ => false }
        st0 [rA, rB, rC] 10 =
      putRecords { envAll with readKey := false } st0 [rA, rB, rC] 10) ∧
    (putRecords { envAll with readKey := false } st0 [rA, rB, rC] 10).2.2 =
      .ok () ∧
    (putRecords { envAll with readKey := false } st0 [rA, rB, rC] 10).1.head =
      rC.cid :=
  ⟨(putRecords_service_only { envAll with readKey := false } st0 [rA, rB, rC] 10
      rC rC [rB, rA] rfl (fun _ => rfl) (fun _ => rfl) (fun _ => rfl) (fun _ => rfl)
      (fun _ => rfl) rfl (by decide) (by decide) rfl).1
      { envAll with readKey := false, validateBody := fun _ => false }
      ⟨rfl, rfl, rfl, rfl, rfl, rfl, rfl, rfl, rfl, rfl⟩,
   (putRecords_service_only { envAll with readKey := false } st0 [rA, rB, rC] 10
      rC rC [rB, rA] rfl (fun _ => rfl) (fun _ => rfl) (fun _ => rfl) (fun _ => rfl)
      (fun _ => rfl) rfl (by decide) (by decide) rfl).2.1,
   (putRecords_service_only { envAll with readKey := false } st0 [rA, rB, rC] 10
      rC rC [rB, rA] rfl (fun _ => rfl) (fun _ => rfl) (fun _ => rfl) (fun _ => rfl)
      (fun _ => rfl) rfl (by decide) (by decide) rfl).2.2.1⟩

theorem localWalk_length (env : Env) (off : Option Nat) (c : Option Nat) (k : Nat) :
    (localWalk env off c k).1.length ≤ k := by
  induction k generalizing c with
  | zero => simp [localWalk]
  | succ n ih =>
    cases c with
    | none => simp [localWalk]
    | some cv =>
      simp only [localWalk]
      split
      · simp
      · cases hr : getRecordM env cv with
        | none => simp
        | some r =>
          simp only [List.length_append, List.length_singleton]
          have := ih r.prev
          omega

theorem stopCursor_append (tail : List Rec) (r : Rec) (c : Option Nat) :
    stopCursor (tail ++ [r]) c = stopCursor tail r.prev := by
  cases tail <;> rfl

theorem localWalk_ok (env : Env) (off : Option Nat) (c : Option Nat) (k : Nat)
    (hsk : env.serviceKey = true)
    (hok : (localWalk env off c k).2 = .ok ()) :
    descends env.fetch off c (localWalk env off c k).1.reverse ∧
    ((localWalk env off c k).1.length = k ∨
      stopCursor (localWalk env off c k).1 c = off ∨
      stopCursor (localWalk env off c k).1 c = none) := by
  induction k generalizing c with
  | zero => cases c <;> exact ⟨trivial, .inl rfl⟩
  | succ n ih =>
    cases c with
    | none => exact ⟨trivial, .inr (.inr rfl)⟩
    | some cv =>
      by_cases hoff : some cv = off
      · refine ⟨?_, .inr (.inl ?_)⟩ <;> simp [localWalk, hoff, descends, stopCursor]
      · cases hr : getRecordM env cv with
        | none =>
          rw [show localWalk env off (some cv) (n + 1) =
              ([], .error (.fetchFailed cv)) by
            simp only [localWalk]; rw [if_neg hoff, hr]] at hok
          cases hok
        | some r =>
          have hw : localWalk env off (some cv) (n + 1) =
              ((localWalk env off r.prev n).1 ++ [r],
               (localWalk env off r.prev n).2) := by
            simp only [localWalk]
            rw [if_neg hoff, hr]
          rw [hw] at hok ⊢
          obtain ⟨hdesc, hstop⟩ := ih r.prev hok
          constructor
          · rw [List.reverse_append]
            refine ⟨⟨cv, rfl, hoff, ?_⟩, hdesc⟩
            unfold getRecordM at hr
            rw [hsk] at hr
            simpa using hr
          · rcases hstop with hlen | hstop
            · exact .inl (by simp [hlen])
            · exact .inr (by rwa [stopCursor_append])

/-- C8 counterexample: with the offset CID `5` defined but absent from the
blockstore and the log head at `rA`, `getLocalRecords` returns no records,
while the walk from the head is non-empty — the records are not "returned
from the head" as the claim states. -/
theorem getLocalRecords_unknown_offset_counterexample :
    getLocalRecords envAll stA (some 5) 10 = ([], .ok ()) ∧
    localWalk envAll none stA.head 10 = ([rA], .ok ()) ∧
    ([] : List Rec) ≠ [rA] :=
  ⟨rfl, rfl, by decide⟩

/-- C8 (amended): `getLocalRecords` returns at most `limit` records; when
the offset CID is defined but not in the blockstore it returns no records
(successfully); otherwise, on success with a service-key, the returned
records descend from the log head by `prev` pointers in chronological
order, never crossing the offset, and the walk stopped either because the
limit was reached or at the offset or at an undefined CID. -/
theorem getLocalRecords_spec (env : Env) (s : St) (off : Option Nat)
    (limit : Nat) :
    (getLocalRecords env s off limit).1.length ≤ limit ∧
    (∀ o, off = some o → isKnown s off = false →
      getLocalRecords env s off limit = ([], .ok ())) ∧
    (env.serviceKey = true → (∀ o, off = some o → isKnown s off = true) →
      (getLocalRecords env s off limit).2 = .ok () →
      descends env.fetch off s.head (getLocalRecords env s off limit).1.reverse ∧
      ((getLocalRecords env s off limit).1.length = limit ∨
        stopCursor (getLocalRecords env s off limit).1 s.head = off ∨
        stopCursor (getLocalRecords env s off limit).1 s.head = none)) := by
  unfold getLocalRecords
  by_cases hcond : off.isSome ∧ ¬ isKnown s off
  · rw [if_pos hcond]
    refine ⟨by simp, fun o ho hk => rfl, fun hsk hknown hok => ?_⟩
    obtain ⟨o, ho⟩ := Option.isSome_iff_exists.mp hcond.1
    exact absurd (hknown o ho) (by simpa using hcond.2)
  · rw [if_neg hcond]
    by_cases hsk : env.serviceKey
    · rw [if_neg (by simpa using hsk)]
      refine ⟨localWalk_length env off s.head limit, fun o ho hk => ?_, ?_⟩
      · exact absurd ⟨by simp [ho], by simp [hk]⟩ hcond
      · intro _ _ hok
        exact localWalk_ok env off s.head limit hsk hok
    · rw [if_pos (by simpa using hsk)]
      refine ⟨by simp, fun o ho hk => absurd ⟨by simp [ho], by simp [hk]⟩ hcond,
        fun hsk' _ _ => absurd hsk' (by simpa using hsk)⟩

/-- C8 witness: pulling after offset `rA` from the fully ingested chain
returns at most the limit and descends from the head. -/
theorem getLocalRecords_spec_witness :
    (getLocalRecords envAll stFull (some 1) 10).1.length ≤ 10 ∧
    descends envAll.fetch (some 1) stFull.head
      (getLocalRecords envAll stFull (some 1) 10).1.reverse :=
  ⟨(getLocalRecords_spec envAll stFull (some 1) 10).1,
   ((getLocalRecords_spec envAll stFull (some 1) 10).2.2 rfl
      (fun o ho => by decide) rfl).1⟩

end GoThreads
